import Mathlib

/-!
Shallow embedding of the mmseg-rs Chinese word segmenter (src/lib.rs) and
verification of its specification.

Modelling conventions:

* Rust `String` / `&[char]` values are modelled as `List Char`; positions are
  `Nat` indices into the character list.
* The `HashMap<String, u32>` dictionary is modelled as an association list in
  which `insert` conses a new binding in front and `lookup` returns the first
  binding, which reproduces the observable overwrite-on-insert semantics of
  the hash map.
* The `f32` scores of the ranking cascade (`avg_word_len`, `stddev`,
  `word_freq`) are modelled by exact values: `avg_word_len` as a rational,
  `stddev` through the population variance (a rational; real `sqrt` is
  strictly monotone on nonnegative inputs, so comparisons of variances yield
  the same `Ordering` as comparisons of standard deviations), and the sum of
  logarithms `word_freq` through the product of the frequencies (`exp` is
  strictly monotone, `ln 0 = -infinity` corresponds to product `0`, and the
  empty sum corresponds to product `1`), so every comparison performed by the
  cascade has the same outcome as the source's ideal-arithmetic comparison.
  `partial_cmp ... unwrap_or(Equal)` never sees a NaN on these values.
* The two unbounded `loop` / `while` constructs of the driver
  (`cut_internal`'s loop and the `while` of `get_next_token`) are given an
  explicit fuel argument; `none` means the fuel was exhausted before the loop
  finished.  A run of the Rust code that terminates is reproduced by any
  sufficiently large fuel, and a diverging run returns `none` for every fuel.
* Reader streams handed to `load_dict` are modelled as lists of
  `Option (List Char)`: one entry per `read_line` result, where `none` models
  an I/O error returned to the loader and the end of the list models EOF.
  A `panic!` (from `unwrap` or an out-of-bounds index) is modelled by the
  distinguished outcome `LoadResult.panicked`.
-/

namespace Mmseg

/-- Source `is_chinese_char` (src/lib.rs:385-388): code point in `[0x4E00, 0x9FA6)`. -/
def is_chinese_char (c : Char) : Bool :=
  0x4e00 ≤ c.toNat && c.toNat < 0x9fa6

/-- Rust `char::is_ascii_alphanumeric`: `0-9`, `A-Z` or `a-z`. -/
def is_ascii_alphanumeric (c : Char) : Bool :=
  (48 ≤ c.toNat && c.toNat ≤ 57) || (65 ≤ c.toNat && c.toNat ≤ 90) ||
    (97 ≤ c.toNat && c.toNat ≤ 122)

/-- Source `Word` (src/lib.rs:14-19). -/
structure Word where
  text : List Char
  freq : Nat
  len : Nat
deriving DecidableEq

/-- Source `Chunk` (src/lib.rs:21-22): an `ArrayVec<Word, 3>`, i.e. the list of
its at most three words. -/
structure Chunk where
  words : List Word
deriving DecidableEq

/-- Source `Chunk::new1` (src/lib.rs:26-30). -/
def Chunk.new1 (w : Word) : Chunk := ⟨[w]⟩

/-- Source `Chunk::new2` (src/lib.rs:33-40). -/
def Chunk.new2 (w1 w2 : Word) : Chunk := ⟨[w1, w2]⟩

/-- Source `Chunk::new3` (src/lib.rs:43-51). -/
def Chunk.new3 (w1 w2 w3 : Word) : Chunk := ⟨[w1, w2, w3]⟩

/-- Source `Chunk::total_word_len` (src/lib.rs:53-59): sum of the word lengths. -/
def Chunk.total_word_len (c : Chunk) : Nat :=
  (c.words.map Word.len).sum

/-- Source `Chunk::avg_word_len` (src/lib.rs:61-63), as an exact rational. -/
def Chunk.avg_word_len (c : Chunk) : ℚ :=
  (c.total_word_len : ℚ) / (c.words.length : ℚ)

/-- Square of source `Chunk::stddev` (src/lib.rs:65-73): the population
variance of the word lengths, as an exact rational.  The cascade only ever
compares `stddev` values, and `sqrt` is strictly monotone on nonnegative
reals, so comparing variances gives the same `Ordering`. -/
def Chunk.varianceQ (c : Chunk) : ℚ :=
  (c.words.map (fun w => ((w.len : ℚ) - c.avg_word_len) ^ 2)).sum /
    (c.words.length : ℚ)

/-- Exponential of source `Chunk::word_freq` (src/lib.rs:75-83): the source
sums `ln(freq)` over the single-character words; the exponential of that sum
is the product of those frequencies (with `ln 0 = -infinity` corresponding to
product `0` and the empty sum to product `1`), and `exp` is strictly
monotone, so comparing the products gives the same `Ordering`. -/
def Chunk.word_freq_prod (c : Chunk) : Nat :=
  ((c.words.filter (fun w => w.len == 1)).map Word.freq).prod

/-- Source `MMSeg` (src/lib.rs:86-90): the dictionary map and the maximum
word length. -/
structure MMSeg where
  words : List (List Char × Nat)
  max_word_len : Nat
deriving DecidableEq

/-- Source `MMSeg::new` (src/lib.rs:93-101) without the optional `embed-dict`
build feature: the empty dictionary. -/
def MMSeg.new : MMSeg := ⟨[], 0⟩

/-- Model of `HashMap::insert`: the new binding shadows any older one. -/
def mapInsert (m : List (List Char × Nat)) (k : List Char) (v : Nat) :
    List (List Char × Nat) :=
  (k, v) :: m

/-- Model of `HashMap::get`: first (most recent) binding wins. -/
def mapLookup : List (List Char × Nat) → List Char → Option Nat
  | [], _ => none
  | (k, v) :: rest, key => if k = key then some v else mapLookup rest key

/-- The `while` loop of source `get_match_chinese_words` (src/lib.rs:303-323).
`orig` is the saved entry position, `p` the running cursor (in the source
`p = orig + index`), and `cd` the remaining iteration allowance
`max_word_len - index`; the source's `index >= max_word_len` test is the
`cd = 0` case.  Each iteration that finds the prefix `chars[orig..p+1]` in
the dictionary conses the corresponding `Word`. -/
def collectMatchesAux (seg : MMSeg) (chars : List Char) (orig : Nat) :
    Nat → Nat → List Word
  | _, 0 => []
  | p, cd + 1 =>
    if h : p < chars.length then
      if is_chinese_char (chars.get ⟨p, h⟩) then
        let text := (chars.drop orig).take (p + 1 - orig)
        let rest := collectMatchesAux seg chars orig (p + 1) cd
        match mapLookup seg.words text with
        | some v => { text := text, freq := v, len := text.length } :: rest
        | none => rest
      else []
    else []

/-- Source `get_match_chinese_words` (src/lib.rs:299-334).  The cursor is
restored on exit in the source, so the model is a pure function of the entry
position.  When nothing matched, the source pushes the sentinel word
`Word { text: "", freq: 0, len: 1 }` (note `len` is `1` in the code even
though the comment above it says "length 0"). -/
def get_match_chinese_words (seg : MMSeg) (chars : List Char) (pos : Nat) :
    List Word :=
  let words := collectMatchesAux seg chars pos pos seg.max_word_len
  if words.isEmpty then [{ text := [], freq := 0, len := 1 }] else words

/-- Source `create_simple_chunks` (src/lib.rs:336-346): one singleton chunk
per non-empty matched word. -/
def create_simple_chunks (seg : MMSeg) (chars : List Char) (pos : Nat) :
    List Chunk :=
  (get_match_chinese_words seg chars pos).foldl
    (fun chunks w => if w.text.isEmpty then chunks else chunks ++ [Chunk.new1 w])
    []

/-- Source `create_chunks` (src/lib.rs:348-382): the three-level lookahead.
The source threads a mutable cursor and restores it; here the positions
`pos + word1.len` and `pos + word1.len + word2.len` are passed explicitly. -/
def create_chunks (seg : MMSeg) (chars : List Char) (pos : Nat) : List Chunk :=
  let text_len := chars.length
  let words1 := get_match_chinese_words seg chars pos
  words1.foldl
    (fun chunks word1 =>
      let p1 := pos + word1.len
      if p1 < text_len then
        let words2 := get_match_chinese_words seg chars p1
        words2.foldl
          (fun chunks word2 =>
            let p2 := p1 + word2.len
            if p2 < text_len then
              let words3 := get_match_chinese_words seg chars p2
              words3.foldl
                (fun chunks word3 =>
                  if word3.text.isEmpty then chunks ++ [Chunk.new2 word1 word2]
                  else chunks ++ [Chunk.new3 word1 word2 word3])
                chunks
            else if p2 = text_len then chunks ++ [Chunk.new2 word1 word2]
            else chunks)
          chunks
      else if p1 = text_len then chunks ++ [Chunk.new1 word1]
      else chunks)
    []

/-- Model of `<[T]>::swap`: exchange the elements at positions `i` and `j`
(identity when either index is out of range, which never happens in the
modelled calls). -/
def listSwap (l : List α) (i j : Nat) : List α :=
  match l[i]?, l[j]? with
  | some a, some b => (l.set i b).set j a
  | _, _ => l

/-- The `for j in 1..chunks.len()` loop of source `take_high_test`
(src/lib.rs:251-261).  `cd` is the number of remaining iterations
(`chunks.len() - j` at entry), so the recursion is structural.  At each step
the probe `chunks[j]` is compared against the running best `chunks[0]`. -/
def thtGo (cmp : α → α → Ordering) : List α → Nat → Nat → Nat → List α × Nat
  | cs, i, _, 0 => (cs, i)
  | cs, i, j, cd + 1 =>
    match cs[j]?, cs[0]? with
    | some cj, some c0 =>
      let rlt := cmp cj c0
      let i1 := if rlt = Ordering.gt then 0 else i
      if rlt ≠ Ordering.lt then thtGo cmp (listSwap cs i1 j) (i1 + 1) (j + 1) cd
      else thtGo cmp cs i1 (j + 1) cd
    | _, _ => (cs, i)

/-- Source `take_high_test` (src/lib.rs:247-263): run the loop starting from
`i = 1`, `j = 1`, then return the prefix `chunks[0..i]`.  (On the empty list
the Rust slice `&mut chunks[0..1]` would panic; the program never calls it on
an empty list, and the model totalises that case to `[]`.) -/
def take_high_test (cmp : α → α → Ordering) (chunks : List α) : List α :=
  let r := thtGo cmp chunks 1 1 (chunks.length - 1)
  r.1.take r.2

/-- Comparison of two elements through a scoring function, with the same
`Ordering` result as Rust `a.cmp(&b)` on integers or `partial_cmp` followed
by `unwrap_or(Equal)` on the (exactly modelled, hence never-NaN) scores. -/
def keyCompare {κ : Type} [LinearOrder κ] (f : α → κ) (a b : α) : Ordering :=
  if f a < f b then Ordering.lt else if f a = f b then Ordering.eq
  else Ordering.gt

/-- The four-rule cascade of source `get_chinese_words_complex`
(src/lib.rs:265-283): rule 1 compares `total_word_len`, rule 2
`avg_word_len`, rule 3 compares the `stddev`s with the arguments swapped
(`b.stddev().partial_cmp(&a.stddev())`, a minimisation), rule 4 `word_freq`. -/
def rankChunks (chunks : List Chunk) : List Chunk :=
  let c1 := take_high_test (fun a b => keyCompare Chunk.total_word_len a b) chunks
  let c2 := take_high_test (fun a b => keyCompare Chunk.avg_word_len a b) c1
  let c3 := take_high_test (fun a b => keyCompare Chunk.varianceQ b a) c2
  take_high_test (fun a b => keyCompare Chunk.word_freq_prod a b) c3

/-- Model of Rust `Iterator::max_by_key`: when several elements are equally
maximal the last one is returned. -/
def max_by_key (f : α → Nat) : List α → Option α
  | [] => none
  | x :: xs => some (xs.foldl (fun best y => if f best ≤ f y then y else best) x)

/-- Source `get_chinese_words_simple` (src/lib.rs:229-244).  Returns the
emitted token together with the updated cursor: non-empty words of the
winning chunk are concatenated and each advances the cursor by its length. -/
def get_chinese_words_simple (seg : MMSeg) (chars : List Char) (pos : Nat) :
    List Char × Nat :=
  let chunks := create_simple_chunks seg chars pos
  match max_by_key Chunk.total_word_len chunks with
  | some chunk =>
    chunk.words.foldl
      (fun acc w => if w.text.isEmpty then acc else (acc.1 ++ w.text, acc.2 + w.len))
      ([], pos)
  | none => ([], pos)

/-- Source `get_chinese_words_complex` (src/lib.rs:246-297).  Returns the
emitted token and the updated cursor.  Only the first word of the winning
chunk (`iter().take(1)`) is considered; an empty-text word is skipped
without advancing the cursor. -/
def get_chinese_words_complex (seg : MMSeg) (chars : List Char) (pos : Nat) :
    List Char × Nat :=
  let chunks := rankChunks (create_chunks seg chars pos)
  match chunks.head? with
  | some chunk =>
    (chunk.words.take 1).foldl
      (fun acc w => if w.text.isEmpty then acc else (acc.1 ++ w.text, acc.2 + w.len))
      ([], pos)
  | none => ([], pos)

/-- Number of leading characters that are neither ASCII alphanumeric nor
Chinese: the two separator-skipping `while` loops of `get_ascii_words`. -/
def skipSepCount : List Char → Nat
  | [] => 0
  | c :: rest =>
    if is_ascii_alphanumeric c || is_chinese_char c then 0
    else skipSepCount rest + 1

/-- Length of the leading ASCII-alphanumeric run: the middle `while` loop of
`get_ascii_words`. -/
def alnumRunLen : List Char → Nat
  | [] => 0
  | c :: rest => if is_ascii_alphanumeric c then alnumRunLen rest + 1 else 0

/-- Source `get_ascii_words` (src/lib.rs:199-227): skip separators, collect
the maximal ASCII-alphanumeric run `chars[start..end]`, then skip trailing
separators.  Returns the token and the updated cursor. -/
def get_ascii_words (chars : List Char) (pos : Nat) : List Char × Nat :=
  let start := pos + skipSepCount (chars.drop pos)
  let endPos := start + alnumRunLen (chars.drop start)
  let final := endPos + skipSepCount (chars.drop endPos)
  ((chars.drop start).take (endPos - start), final)

/-- Source `get_next_token` (src/lib.rs:180-197), with explicit fuel for its
`while *pos < chars.len()` loop.  `some (some tok, p)` models
`Some(token)` with final cursor `p`, `some (none, p)` models `None` (end of
input), and `none` means the fuel ran out before the loop finished. -/
def get_next_token (seg : MMSeg) (chars : List Char) (simple : Bool) :
    Nat → Nat → Option (Option (List Char) × Nat)
  | 0, _ => none
  | fuel + 1, pos =>
    if h : pos < chars.length then
      let chr := chars.get ⟨pos, h⟩
      let r :=
        if is_chinese_char chr then
          if simple then get_chinese_words_simple seg chars pos
          else get_chinese_words_complex seg chars pos
        else get_ascii_words chars pos
      if r.1.length > 0 then some (some r.1, r.2)
      else get_next_token seg chars simple fuel r.2
    else some (none, pos)

/-- Source `cut_internal` (src/lib.rs:166-178), with explicit fuel for its
`loop`: collect tokens until `get_next_token` returns `None`.  `none` means
some loop did not finish within the fuel. -/
def cut_internal (seg : MMSeg) (chars : List Char) (simple : Bool) :
    Nat → Nat → Option (List (List Char))
  | 0, _ => none
  | fuel + 1, pos =>
    match get_next_token seg chars simple (fuel + 1) pos with
    | none => none
    | some (none, _) => some []
    | some (some tok, p) =>
      match cut_internal seg chars simple fuel p with
      | none => none
      | some toks => some (tok :: toks)

/-- Source `cut` (src/lib.rs:161-163): complex-mode segmentation. -/
def cut (seg : MMSeg) (chars : List Char) (fuel : Nat) :
    Option (List (List Char)) :=
  cut_internal seg chars false fuel 0

/-- Source `cut_simple` (src/lib.rs:157-159): simple-mode segmentation. -/
def cut_simple (seg : MMSeg) (chars : List Char) (fuel : Nat) :
    Option (List (List Char)) :=
  cut_internal seg chars true fuel 0

/-- Model of Rust `str::split(' ')`: split at every space, keeping empty
segments (so the result is always non-empty). -/
def splitOnSpaceAux : List Char → List Char → List (List Char)
  | cur, [] => [cur.reverse]
  | cur, c :: rest =>
    if c = ' ' then cur.reverse :: splitOnSpaceAux [] rest
    else splitOnSpaceAux (c :: cur) rest

/-- Rust `buf.split(' ').collect::<Vec<_>>()`. -/
def splitOnSpace (s : List Char) : List (List Char) :=
  splitOnSpaceAux [] s

/-- Whitespace predicate used by the model of Rust `str::trim` (the
dictionary lines only ever carry ASCII whitespace, so the ASCII subset of
Unicode `White_Space` suffices). -/
def isWhitespaceChar (c : Char) : Bool :=
  c = ' ' || c = '\t' || c = '\n' || c = '\r'

/-- Model of Rust `str::trim`: drop whitespace from both ends. -/
def trimChars (s : List Char) : List Char :=
  ((s.dropWhile isWhitespaceChar).reverse.dropWhile isWhitespaceChar).reverse

/-- Model of Rust `str::parse::<u32>()`: digits accumulated left to right;
`none` on any non-digit. -/
def parseDigitsAux : List Char → Nat → Option Nat
  | [], acc => some acc
  | c :: rest, acc =>
    if 48 ≤ c.toNat && c.toNat ≤ 57 then
      parseDigitsAux rest (acc * 10 + (c.toNat - 48))
    else none

/-- Model of Rust `str::parse::<u32>()`: an optional leading `+`, then at
least one ASCII digit, value at most `u32::MAX`; `none` models `Err`. -/
def parseU32 (s : List Char) : Option Nat :=
  let s1 := match s with
    | '+' :: rest => rest
    | _ => s
  match s1 with
  | [] => none
  | _ =>
    match parseDigitsAux s1 0 with
    | some n => if n < 2 ^ 32 then some n else none
    | none => none

/-- Outcome of `load_dict` (src/lib.rs:110-142).  The source signature is
`io::Result<()>`: `ok` models `Ok(())` (with the mutated `self`), `ioError`
models an `Err` propagated from `read_line` by `?`, and `panicked` models a
panic raised by `parts[0].parse().unwrap()` or the out-of-bounds index
`parts[1]` on a malformed line — the source has no error return for those. -/
inductive LoadResult
  | ok (seg : MMSeg)
  | ioError
  | panicked
deriving DecidableEq

/-- Body of the first `while` loop of `load_dict` (src/lib.rs:116-128) for
one character-dictionary line: `freq` is `parts[0]` parsed as `u32`
(`unwrap`: `none` models the panic), the key is `parts[1]` trimmed (`none`
models the index panic when there is no second field; any further fields are
ignored), `max_word_len` is updated from the key's character count. -/
def loadCharLine (seg : MMSeg) (line : List Char) : Option MMSeg :=
  let parts := splitOnSpace line
  match parts[0]?, parts[1]? with
  | some p0, some p1 =>
    match parseU32 p0 with
    | some freq =>
      let chr := trimChars p1
      let word_len := chr.length
      some { words := mapInsert seg.words chr freq,
             max_word_len :=
               if word_len > seg.max_word_len then word_len
               else seg.max_word_len }
    | none => none
  | _, _ => none

/-- Body of the second `while` loop of `load_dict` (src/lib.rs:129-140) for
one word-dictionary line: `parts[0]` is parsed as the declared length (used
only for `max_word_len`), and the trimmed `parts[1]` is inserted with
frequency `0`. -/
def loadWordLine (seg : MMSeg) (line : List Char) : Option MMSeg :=
  let parts := splitOnSpace line
  match parts[0]?, parts[1]? with
  | some p0, some p1 =>
    match parseU32 p0 with
    | some word_len =>
      let chr := trimChars p1
      some { words := mapInsert seg.words chr 0,
             max_word_len :=
               if word_len > seg.max_word_len then word_len
               else seg.max_word_len }
    | none => none
  | _, _ => none

/-- One `while read_line` loop of `load_dict`: process the stream's lines in
order with `step`; a `none` stream entry is a `read_line` error propagated as
`ioError`, and a failing `step` is a panic. -/
def loadLines (step : MMSeg → List Char → Option MMSeg) :
    MMSeg → List (Option (List Char)) → LoadResult
  | seg, [] => .ok seg
  | _, none :: _ => .ioError
  | seg, some line :: rest =>
    match step seg line with
    | some seg1 => loadLines step seg1 rest
    | none => .panicked

/-- Source `load_dict` (src/lib.rs:110-142): the character dictionary is
loaded first, then the word dictionary. -/
def load_dict (seg : MMSeg) (chars_dict words_dict : List (Option (List Char))) :
    LoadResult :=
  match loadLines loadCharLine seg chars_dict with
  | .ok seg1 => loadLines loadWordLine seg1 words_dict
  | r => r

/-! ### Helper lemmas about `listSwap` -/

theorem mem_of_getElem? {l : List α} {n : Nat} {a : α} (h : l[n]? = some a) :
    a ∈ l :=
  List.mem_iff_getElem?.mpr ⟨n, h⟩

theorem set_self_of_getElem? {l : List α} {n : Nat} {a : α}
    (h : l[n]? = some a) : l.set n a = l := by
  induction l generalizing n with
  | nil => simp at h
  | cons x xs ih =>
    cases n with
    | zero =>
      simp only [List.getElem?_cons_zero, Option.some.injEq] at h
      simp [List.set, h]
    | succ m =>
      simp only [List.getElem?_cons_succ] at h
      simp [List.set, ih h]

theorem listSwap_length (l : List α) (i j : Nat) :
    (listSwap l i j).length = l.length := by
  unfold listSwap
  rcases h1 : l[i]? with _ | a <;> rcases h2 : l[j]? with _ | b <;>
    simp [List.length_set]

theorem listSwap_self (l : List α) (j : Nat) : listSwap l j j = l := by
  unfold listSwap
  rcases h : l[j]? with _ | a
  · simp
  · simp only [h, List.set_set]
    exact set_self_of_getElem? h

theorem listSwap_getElem?_left {l : List α} {i j : Nat} (hij : i ≠ j)
    (hi : i < l.length) (hj : j < l.length) :
    (listSwap l i j)[i]? = l[j]? := by
  unfold listSwap
  rcases h1 : l[i]? with _ | a
  · rw [List.getElem?_eq_getElem hi] at h1; exact absurd h1 (by simp)
  · rcases h2 : l[j]? with _ | b
    · rw [List.getElem?_eq_getElem hj] at h2; exact absurd h2 (by simp)
    · rw [List.getElem?_set_ne (Ne.symm hij), List.getElem?_set_self
        (by simpa using hi)]

theorem listSwap_getElem?_right {l : List α} {i j : Nat}
    (hi : i < l.length) (hj : j < l.length) :
    (listSwap l i j)[j]? = l[i]? := by
  unfold listSwap
  rcases h1 : l[i]? with _ | a
  · rw [List.getElem?_eq_getElem hi] at h1; exact absurd h1 (by simp)
  · rcases h2 : l[j]? with _ | b
    · rw [List.getElem?_eq_getElem hj] at h2; exact absurd h2 (by simp)
    · rw [List.getElem?_set_self (by simpa [List.length_set] using hj)]

theorem listSwap_eq_of_oob {l : List α} {i j : Nat}
    (h : l.length ≤ i ∨ l.length ≤ j) : listSwap l i j = l := by
  unfold listSwap
  rcases h1 : l[i]? with _ | a
  · rfl
  · rcases h2 : l[j]? with _ | b
    · rfl
    · rcases h with h | h
      · rw [List.getElem?_eq_none h] at h1; exact absurd h1 (by simp)
      · rw [List.getElem?_eq_none h] at h2; exact absurd h2 (by simp)

theorem listSwap_getElem?_other {l : List α} {i j k : Nat} (hki : k ≠ i)
    (hkj : k ≠ j) : (listSwap l i j)[k]? = l[k]? := by
  unfold listSwap
  rcases h1 : l[i]? with _ | a <;> rcases h2 : l[j]? with _ | b <;> try rfl
  rw [List.getElem?_set_ne (Ne.symm hkj), List.getElem?_set_ne (Ne.symm hki)]

theorem listSwap_mem {l : List α} {i j : Nat} {x : α}
    (h : x ∈ listSwap l i j) : x ∈ l := by
  by_cases hi : i < l.length
  · by_cases hj : j < l.length
    · rcases List.mem_iff_getElem?.mp h with ⟨k, hk⟩
      by_cases hki : k = i
      · rw [hki] at hk
        by_cases hij : i = j
        · rw [hij, listSwap_self] at hk; exact mem_of_getElem? hk
        · rw [listSwap_getElem?_left hij hi hj] at hk
          exact mem_of_getElem? hk
      · by_cases hkj : k = j
        · rw [hkj, listSwap_getElem?_right hi hj] at hk
          exact mem_of_getElem? hk
        · rw [listSwap_getElem?_other hki hkj] at hk
          exact mem_of_getElem? hk
    · rw [listSwap_eq_of_oob (Or.inr (by omega))] at h; exact h
  · rw [listSwap_eq_of_oob (Or.inl (by omega))] at h; exact h

/-! ### Helper lemmas about `keyCompare` -/

theorem keyCompare_self {κ : Type} [LinearOrder κ] (f : α → κ) (a : α) :
    keyCompare f a a = Ordering.eq := by
  simp [keyCompare]

theorem keyCompare_eq_of_eq {κ : Type} [LinearOrder κ] {f : α → κ} {a b : α}
    (h : f a = f b) : keyCompare f a b = Ordering.eq := by
  simp [keyCompare, h]

theorem keyCompare_of_lt {κ : Type} [LinearOrder κ] {f : α → κ} {a b : α}
    (h : f a < f b) : keyCompare f a b = Ordering.lt := by
  simp [keyCompare, h]

theorem keyCompare_of_gt {κ : Type} [LinearOrder κ] {f : α → κ} {a b : α}
    (h : f b < f a) : keyCompare f a b = Ordering.gt := by
  have h1 : ¬ f a < f b := not_lt_of_gt h
  have h2 : ¬ f a = f b := ne_of_gt h
  simp [keyCompare, h1, h2]

/-! ### Behaviour of `take_high_test` -/

theorem thtGo_mem (cmp : α → α → Ordering) (l0 : List α) :
    ∀ (cd : Nat) (cs : List α) (i j : Nat), (∀ x ∈ cs, x ∈ l0) →
      ∀ x ∈ (thtGo cmp cs i j cd).1, x ∈ l0 := by
  intro cd
  induction cd with
  | zero => intro cs i j hcs x hx; exact hcs x hx
  | succ cd ih =>
    intro cs i j hcs x hx
    rcases h1 : cs[j]? with _ | cj <;> rcases h2 : cs[0]? with _ | c0 <;>
      simp only [thtGo, h1, h2] at hx
    · exact hcs x hx
    · exact hcs x hx
    · exact hcs x hx
    · by_cases hlt : cmp cj c0 ≠ Ordering.lt
      · simp only [if_pos hlt] at hx
        exact ih _ _ _ (fun y hy => hcs y (listSwap_mem hy)) x hx
      · simp only [if_neg hlt] at hx
        exact ih _ _ _ hcs x hx

theorem take_high_test_mem (cmp : α → α → Ordering) (l : List α) :
    ∀ x ∈ take_high_test cmp l, x ∈ l := by
  intro x hx
  unfold take_high_test at hx
  exact thtGo_mem cmp l _ l 1 1 (fun y hy => hy) x (List.take_subset _ _ hx)

theorem thtGo_all_eq (cmp : α → α → Ordering) (l : List α)
    (h : ∀ x ∈ l, ∀ y ∈ l, cmp x y = Ordering.eq) :
    ∀ (cd j : Nat), cd + j = l.length → 1 ≤ j →
      thtGo cmp l j j cd = (l, l.length) := by
  intro cd
  induction cd with
  | zero =>
    intro j hcd _
    simp only [thtGo]
    rw [show j = l.length by omega]
  | succ cd ih =>
    intro j hcd hj
    have hjl : j < l.length := by omega
    have h0l : 0 < l.length := by omega
    have h1 : l[j]? = some (l.get ⟨j, hjl⟩) := by
      rw [List.getElem?_eq_getElem hjl]; rfl
    have h2 : l[0]? = some (l.get ⟨0, h0l⟩) := by
      rw [List.getElem?_eq_getElem h0l]; rfl
    have heq : cmp (l.get ⟨j, hjl⟩) (l.get ⟨0, h0l⟩) = Ordering.eq :=
      h _ (List.get_mem l j hjl) _ (List.get_mem l 0 h0l)
    simp only [thtGo, h1, h2, heq]
    rw [if_neg (by decide : ¬ (Ordering.eq = Ordering.gt)),
      if_pos (by decide : Ordering.eq ≠ Ordering.lt), listSwap_self]
    exact ih (j + 1) (by omega) (by omega)

theorem take_high_test_all_eq (cmp : α → α → Ordering) (l : List α)
    (h : ∀ x ∈ l, ∀ y ∈ l, cmp x y = Ordering.eq) :
    take_high_test cmp l = l := by
  cases hl : l with
  | nil => rfl
  | cons a as =>
    unfold take_high_test
    rw [← hl, show l.length - 1 = (l.length - 1 + 1) - 1 by omega]
    have hlen : 1 ≤ l.length := by rw [hl]; simp
    rw [show l.length - 1 + 1 = l.length by omega]
    rw [thtGo_all_eq cmp l h (l.length - 1) 1 (by omega) le_rfl]
    exact List.take_length l

theorem thtGo_max_spec {κ : Type} [LinearOrder κ] (key : α → κ)
    (cmp : α → α → Ordering) (hcmp : ∀ x y, cmp x y = keyCompare key x y)
    (l0 : List α) :
    ∀ (cd : Nat) (cs : List α) (i j : Nat),
      cd + j = cs.length → 1 ≤ i → i ≤ j → cs.length = l0.length →
      (∀ x ∈ cs, x ∈ l0) →
      (∀ k x x0, k < i → cs[k]? = some x → cs[0]? = some x0 →
        key x = key x0) →
      (∀ k x x0, i ≤ k → k < j → cs[k]? = some x → cs[0]? = some x0 →
        key x < key x0) →
      (∀ y ∈ l0, (∀ x0, cs[0]? = some x0 → key y ≤ key x0) ∨
        (∃ k, j ≤ k ∧ cs[k]? = some y)) →
      ((thtGo cmp cs i j cd).1.length = l0.length ∧
        1 ≤ (thtGo cmp cs i j cd).2 ∧
        ∀ x ∈ (thtGo cmp cs i j cd).1.take (thtGo cmp cs i j cd).2,
          x ∈ l0 ∧ ∀ y ∈ l0, key y ≤ key x) := by
  intro cd
  induction cd with
  | zero =>
    intro cs i j hcd hi1 hij hlen hmem inv3 inv4 inv6
    simp only [thtGo]
    refine ⟨hlen, hi1, ?_⟩
    intro x hx
    have hxcs : x ∈ cs := List.take_subset _ _ hx
    refine ⟨hmem x hxcs, ?_⟩
    have h0_cs : 0 < cs.length := by omega
    rcases h2 : cs[0]? with _ | c0
    · rw [List.getElem?_eq_getElem h0_cs] at h2; exact absurd h2 (by simp)
    rcases List.mem_iff_getElem.mp hx with ⟨n, hn, hgx⟩
    have htk := List.length_take i cs
    have hn_i : n < i := by omega
    have hn_cs : n < cs.length := by omega
    have hcsn : cs[n]? = some x := by
      rw [List.getElem?_eq_getElem hn_cs, ← hgx, List.getElem_take]
    have hkey : key x = key c0 := inv3 n x c0 hn_i hcsn h2
    intro y hy
    rcases inv6 y hy with hL | ⟨k, hkj, hck⟩
    · rw [hkey]; exact hL c0 h2
    · rw [List.getElem?_eq_none (by omega)] at hck
      exact absurd hck (by simp)
  | succ cd ih =>
    intro cs i j hcd hi1 hij hlen hmem inv3 inv4 inv6
    have hj_cs : j < cs.length := by omega
    have h0_cs : 0 < cs.length := by omega
    rcases h1 : cs[j]? with _ | cj
    · rw [List.getElem?_eq_getElem hj_cs] at h1; exact absurd h1 (by simp)
    rcases h2 : cs[0]? with _ | c0
    · rw [List.getElem?_eq_getElem h0_cs] at h2; exact absurd h2 (by simp)
    simp only [thtGo, h1, h2]
    rcases lt_trichotomy (key cj) (key c0) with hlt | heq | hgt
    · rw [hcmp cj c0, keyCompare_of_lt hlt,
        if_neg (by decide : ¬ (Ordering.lt = Ordering.gt)),
        if_neg (show ¬ (Ordering.lt ≠ Ordering.lt) by simp)]
      refine ih cs i (j + 1) (by omega) hi1 (by omega) hlen hmem inv3 ?_ ?_
      · intro k x x0 hik hkj hck hc0
        rw [h2] at hc0; injection hc0 with hc0; subst hc0
        by_cases hkjeq : k = j
        · subst hkjeq; rw [h1] at hck; injection hck with hck; subst hck
          exact hlt
        · exact inv4 k x c0 hik (by omega) hck h2
      · intro y hy
        rcases inv6 y hy with hL | ⟨k, hkj, hck⟩
        · exact Or.inl hL
        · by_cases hkjeq : k = j
          · subst hkjeq; rw [h1] at hck; injection hck with hck; subst hck
            refine Or.inl ?_
            intro x0 hx0
            rw [h2] at hx0; injection hx0 with hx0; subst hx0
            exact le_of_lt hlt
          · exact Or.inr ⟨k, by omega, hck⟩
    · rw [hcmp cj c0, keyCompare_eq_of_eq heq,
        if_neg (by decide : ¬ (Ordering.eq = Ordering.gt)),
        if_pos (by decide : Ordering.eq ≠ Ordering.lt)]
      have hi_cs : i < cs.length := by omega
      have hlen' : (listSwap cs i j).length = cs.length := listSwap_length cs i j
      have head' : (listSwap cs i j)[0]? = some c0 := by
        rw [listSwap_getElem?_other (by omega) (by omega), h2]
      have hswap_i : (listSwap cs i j)[i]? = some cj := by
        by_cases hijeq : i = j
        · rw [hijeq, listSwap_self, h1]
        · rw [listSwap_getElem?_left hijeq hi_cs hj_cs, h1]
      refine ih (listSwap cs i j) (i + 1) (j + 1) (by omega) (by omega)
        (by omega) (by omega) (fun x hx => hmem x (listSwap_mem hx)) ?_ ?_ ?_
      · intro k x x0 hk hck hc0
        rw [head'] at hc0; injection hc0 with hc0; subst hc0
        by_cases hkieq : k = i
        · subst hkieq; rw [hswap_i] at hck; injection hck with hck; subst hck
          exact heq
        · have hk_i : k < i := by omega
          rw [listSwap_getElem?_other hkieq (by omega)] at hck
          exact inv3 k x c0 hk_i hck h2
      · intro k x x0 hik hkj hck hc0
        rw [head'] at hc0; injection hc0 with hc0; subst hc0
        by_cases hkjeq : k = j
        · rw [hkjeq] at hck
          have hij_lt : i < j := by omega
          rw [listSwap_getElem?_right hi_cs hj_cs] at hck
          exact inv4 i x c0 le_rfl hij_lt hck h2
        · rw [listSwap_getElem?_other (by omega) hkjeq] at hck
          exact inv4 k x c0 (by omega) (by omega) hck h2
      · intro y hy
        rcases inv6 y hy with hL | ⟨k, hkj, hck⟩
        · refine Or.inl ?_
          intro x0 hx0
          rw [head'] at hx0; injection hx0 with hx0; subst hx0
          exact hL c0 h2
        · by_cases hkjeq : k = j
          · subst hkjeq; rw [h1] at hck; injection hck with hck; subst hck
            refine Or.inl ?_
            intro x0 hx0
            rw [head'] at hx0; injection hx0 with hx0; subst hx0
            exact le_of_eq heq
          · refine Or.inr ⟨k, by omega, ?_⟩
            rw [listSwap_getElem?_other (by omega) hkjeq]
            exact hck
    · rw [hcmp cj c0, keyCompare_of_gt hgt,
        if_pos (by decide : Ordering.gt = Ordering.gt),
        if_pos (by decide : Ordering.gt ≠ Ordering.lt)]
      have h0j : (0 : Nat) ≠ j := by omega
      have hlen' : (listSwap cs 0 j).length = cs.length := listSwap_length cs 0 j
      have head' : (listSwap cs 0 j)[0]? = some cj := by
        rw [listSwap_getElem?_left h0j h0_cs hj_cs, h1]
      have hswap_j : (listSwap cs 0 j)[j]? = some c0 := by
        rw [listSwap_getElem?_right h0_cs hj_cs, h2]
      refine ih (listSwap cs 0 j) 1 (j + 1) (by omega) le_rfl (by omega)
        (by omega) (fun x hx => hmem x (listSwap_mem hx)) ?_ ?_ ?_
      · intro k x x0 hk hck hc0
        rw [head'] at hc0; injection hc0 with hc0; subst hc0
        have hk0 : k = 0 := by omega
        subst hk0; rw [head'] at hck; injection hck with hck; subst hck
        rfl
      · intro k x x0 h1k hkj hck hc0
        rw [head'] at hc0; injection hc0 with hc0; subst hc0
        by_cases hkjeq : k = j
        · subst hkjeq; rw [hswap_j] at hck; injection hck with hck; subst hck
          exact hgt
        · rw [listSwap_getElem?_other (by omega) hkjeq] at hck
          by_cases hki : k < i
          · rw [inv3 k x c0 hki hck h2]; exact hgt
          · exact lt_trans (inv4 k x c0 (by omega) (by omega) hck h2) hgt
      · intro y hy
        rcases inv6 y hy with hL | ⟨k, hkj, hck⟩
        · refine Or.inl ?_
          intro x0 hx0
          rw [head'] at hx0; injection hx0 with hx0; subst hx0
          exact le_of_lt (lt_of_le_of_lt (hL c0 h2) hgt)
        · by_cases hkjeq : k = j
          · subst hkjeq; rw [h1] at hck; injection hck with hck; subst hck
            refine Or.inl ?_
            intro x0 hx0
            rw [head'] at hx0; injection hx0 with hx0; subst hx0
            exact le_rfl
          · refine Or.inr ⟨k, by omega, ?_⟩
            rw [listSwap_getElem?_other (by omega) hkjeq]
            exact hck

theorem take_high_test_max_spec {κ : Type} [LinearOrder κ] (key : α → κ)
    (cmp : α → α → Ordering) (hcmp : ∀ x y, cmp x y = keyCompare key x y)
    (l : List α) (hl : l ≠ []) :
    take_high_test cmp l ≠ [] ∧
      ∀ x ∈ take_high_test cmp l, x ∈ l ∧ ∀ y ∈ l, key y ≤ key x := by
  have hlen : 0 < l.length := List.length_pos.mpr hl
  have hspec := thtGo_max_spec key cmp hcmp l (l.length - 1) l 1 1
    (by omega) le_rfl le_rfl rfl (fun x hx => hx)
    (by
      intro k x x0 hk hck hc0
      have hk0 : k = 0 := by omega
      rw [hk0] at hck
      rw [hck] at hc0; injection hc0 with hc0; rw [hc0])
    (by intro k x x0 h1k hk1 _ _; omega)
    (by
      intro y hy
      rcases List.mem_iff_getElem?.mp hy with ⟨n, hn⟩
      by_cases hn0 : n = 0
      · refine Or.inl ?_
        intro x0 hx0
        rw [hn0] at hn
        rw [hn] at hx0; injection hx0 with hx0; rw [hx0]
      · exact Or.inr ⟨n, by omega, hn⟩)
  unfold take_high_test
  refine ⟨?_, hspec.2.2⟩
  apply List.length_pos.mp
  rw [List.length_take]
  have ha := hspec.1
  have hb := hspec.2.1
  omega

/-! ### Lemmas about the matcher and the chunk enumerators -/

theorem collectMatchesAux_forall (seg : MMSeg) (chars : List Char)
    (orig : Nat) :
    ∀ (cd p : Nat), orig ≤ p →
      ∀ w ∈ collectMatchesAux seg chars orig p cd,
        1 ≤ w.len ∧ mapLookup seg.words w.text = some w.freq := by
  intro cd
  induction cd with
  | zero => intro p _ w hw; simp [collectMatchesAux] at hw
  | succ cd ih =>
    intro p hop w hw
    by_cases h : p < chars.length
    · by_cases hc : is_chinese_char (chars.get ⟨p, h⟩)
      · rcases hm : mapLookup seg.words ((chars.drop orig).take (p + 1 - orig))
          with _ | v
        · simp only [collectMatchesAux, dif_pos h, if_pos hc, hm] at hw
          exact ih (p + 1) (by omega) w hw
        · simp only [collectMatchesAux, dif_pos h, if_pos hc, hm] at hw
          rcases List.mem_cons.mp hw with hw | hw
          · rw [hw]
            refine ⟨?_, ?_⟩
            · simp only [List.length_take, List.length_drop]
              omega
            · exact hm
          · exact ih (p + 1) (by omega) w hw
      · simp only [collectMatchesAux, dif_pos h, if_neg hc] at hw
        cases hw
    · simp only [collectMatchesAux, dif_neg h] at hw
      cases hw

theorem get_match_chinese_words_forall (seg : MMSeg) (chars : List Char)
    (pos : Nat) :
    ∀ w ∈ get_match_chinese_words seg chars pos,
      1 ≤ w.len ∧
        (w.text = [] ∨ mapLookup seg.words w.text = some w.freq) := by
  intro w hw
  unfold get_match_chinese_words at hw
  by_cases he : (collectMatchesAux seg chars pos pos seg.max_word_len).isEmpty
  · rw [if_pos he] at hw
    rcases List.mem_cons.mp hw with hw | hw
    · rw [hw]
      exact ⟨le_rfl, Or.inl rfl⟩
    · cases hw
  · rw [if_neg he] at hw
    have := collectMatchesAux_forall seg chars pos seg.max_word_len pos
      le_rfl w hw
    exact ⟨this.1, Or.inr this.2⟩

theorem foldl_preserve {γ : Type} {P : γ → Prop} :
    ∀ (l : List α) (f : List γ → α → List γ) (init : List γ),
      (∀ x ∈ init, P x) →
      (∀ acc a, a ∈ l → (∀ x ∈ acc, P x) → ∀ x ∈ f acc a, P x) →
      ∀ x ∈ l.foldl f init, P x := by
  intro l
  induction l with
  | nil => intro f init hinit _ x hx; exact hinit x (by simpa using hx)
  | cons a as ih =>
    intro f init hinit hstep x hx
    rw [List.foldl_cons] at hx
    exact ih f (f init a) (hstep init a (List.mem_cons_self a as) hinit)
      (fun acc b hb => hstep acc b (List.mem_cons_of_mem a hb)) x hx

theorem chunk_words_q {Q : Word → Prop} {ws : List Word} {w : Word}
    (hw : w ∈ ws) (hQ : ∀ u ∈ ws, Q u) : Q w :=
  hQ w hw

theorem create_chunks_words (seg : MMSeg) (chars : List Char) (pos : Nat)
    (Q : Word → Prop)
    (hQ : ∀ p, ∀ w ∈ get_match_chinese_words seg chars p, Q w) :
    ∀ c ∈ create_chunks seg chars pos, ∀ w ∈ c.words, Q w := by
  intro c hc
  refine @foldl_preserve _ _ (fun c => ∀ w ∈ c.words, Q w) _ _ _ ?_ ?_ c hc
  · intro x hx; cases hx
  · intro acc word1 hw1 hacc x hx
    simp only at hx
    by_cases hp1 : pos + word1.len < chars.length
    · rw [if_pos hp1] at hx
      refine foldl_preserve _ _ _ hacc ?_ x hx
      intro acc2 word2 hw2 hacc2 x2 hx2
      simp only at hx2
      by_cases hp2 : pos + word1.len + word2.len < chars.length
      · rw [if_pos hp2] at hx2
        refine foldl_preserve _ _ _ hacc2 ?_ x2 hx2
        intro acc3 word3 hw3 hacc3 x3 hx3
        simp only at hx3
        by_cases he3 : word3.text.isEmpty
        · rw [if_pos he3] at hx3
          rcases List.mem_append.mp hx3 with hx3 | hx3
          · exact hacc3 x3 hx3
          · rcases List.mem_singleton.mp hx3 with rfl
            intro w hw
            rcases List.mem_cons.mp hw with hww | hw
            · rw [hww]; exact hQ pos word1 hw1
            · rcases List.mem_cons.mp hw with hww | hw
              · rw [hww]; exact hQ _ word2 hw2
              · cases hw
        · rw [if_neg he3] at hx3
          rcases List.mem_append.mp hx3 with hx3 | hx3
          · exact hacc3 x3 hx3
          · rcases List.mem_singleton.mp hx3 with rfl
            intro w hw
            rcases List.mem_cons.mp hw with hww | hw
            · rw [hww]; exact hQ pos word1 hw1
            · rcases List.mem_cons.mp hw with hww | hw
              · rw [hww]; exact hQ _ word2 hw2
              · rcases List.mem_cons.mp hw with hww | hw
                · rw [hww]; exact hQ _ word3 hw3
                · cases hw
      · rw [if_neg hp2] at hx2
        by_cases he2 : pos + word1.len + word2.len = chars.length
        · rw [if_pos he2] at hx2
          rcases List.mem_append.mp hx2 with hx2 | hx2
          · exact hacc2 x2 hx2
          · rcases List.mem_singleton.mp hx2 with rfl
            intro w hw
            rcases List.mem_cons.mp hw with hww | hw
            · rw [hww]; exact hQ pos word1 hw1
            · rcases List.mem_cons.mp hw with hww | hw
              · rw [hww]; exact hQ _ word2 hw2
              · cases hw
        · rw [if_neg he2] at hx2
          exact hacc2 x2 hx2
    · rw [if_neg hp1] at hx
      by_cases he1 : pos + word1.len = chars.length
      · rw [if_pos he1] at hx
        rcases List.mem_append.mp hx with hx | hx
        · exact hacc x hx
        · rcases List.mem_singleton.mp hx with rfl
          intro w hw
          rcases List.mem_cons.mp hw with hww | hw
          · rw [hww]; exact hQ pos word1 hw1
          · cases hw
      · rw [if_neg he1] at hx
        exact hacc x hx

theorem create_simple_chunks_shape (seg : MMSeg) (chars : List Char)
    (pos : Nat) :
    ∀ c ∈ create_simple_chunks seg chars pos,
      ∃ w ∈ get_match_chinese_words seg chars pos,
        w.text ≠ [] ∧ c = Chunk.new1 w := by
  intro c hc
  refine @foldl_preserve _ _
    (fun c => ∃ w ∈ get_match_chinese_words seg chars pos,
      w.text ≠ [] ∧ c = Chunk.new1 w) _ _ _ ?_ ?_ c hc
  · intro x hx; cases hx
  · intro acc w hw hacc x hx
    simp only at hx
    by_cases he : w.text.isEmpty
    · rw [if_pos he] at hx
      exact hacc x hx
    · rw [if_neg he] at hx
      rcases List.mem_append.mp hx with hx | hx
      · exact hacc x hx
      · rcases List.mem_singleton.mp hx with rfl
        exact ⟨w, hw, by simpa using he, rfl⟩

theorem foldl_best_mem (f : α → Nat) :
    ∀ (as : List α) (init : α),
      as.foldl (fun best y => if f best ≤ f y then y else best) init ∈
        init :: as := by
  intro as
  induction as with
  | nil => intro init; simp
  | cons b bs ih =>
    intro init
    rw [List.foldl_cons]
    by_cases hc : f init ≤ f b
    · rw [if_pos hc]
      rcases List.mem_cons.mp (ih b) with h | h
      · rw [h]
        exact List.mem_cons_of_mem _ (List.mem_cons_self _ _)
      · exact List.mem_cons_of_mem _ (List.mem_cons_of_mem _ h)
    · rw [if_neg hc]
      rcases List.mem_cons.mp (ih init) with h | h
      · rw [h]
        exact List.mem_cons_self _ _
      · exact List.mem_cons_of_mem _ (List.mem_cons_of_mem _ h)

theorem max_by_key_mem (f : α → Nat) (l : List α) (x : α)
    (h : max_by_key f l = some x) : x ∈ l := by
  cases l with
  | nil => simp [max_by_key] at h
  | cons a as =>
    simp only [max_by_key, Option.some.injEq] at h
    rw [← h]
    exact foldl_best_mem f as a

/-! ### Concrete dictionaries used as test fixtures -/

/-- A dictionary knowing only the character `好` (`Lmax = 1`); the character
`中` has no entry, which exercises the no-match sentinel paths. -/
def segHao : MMSeg := ⟨[(['好'], 5)], 1⟩

/-- A dictionary knowing only the character `中` with frequency 7. -/
def segZhong : MMSeg := ⟨[(['中'], 7)], 1⟩

/-- The sentinel word the matcher returns when nothing matches
(src/lib.rs:327-331). -/
def sentinelWord : Word := { text := [], freq := 0, len := 1 }

/-! ### C3: the no-match sentinel -/

theorem collectMatchesAux_empty_of_no_match (seg : MMSeg) (chars : List Char)
    (pos : Nat)
    (h : ∀ k, 1 ≤ k → mapLookup seg.words ((chars.drop pos).take k) = none) :
    ∀ (cd p : Nat), pos ≤ p →
      collectMatchesAux seg chars pos p cd = [] := by
  intro cd
  induction cd with
  | zero => intro p _; rfl
  | succ cd ih =>
    intro p hpp
    by_cases h1 : p < chars.length
    · by_cases hc : is_chinese_char (chars.get ⟨p, h1⟩)
      · simp only [collectMatchesAux, dif_pos h1, if_pos hc,
          h (p + 1 - pos) (by omega)]
        exact ih (p + 1) (by omega)
      · simp only [collectMatchesAux, dif_pos h1, if_neg hc]
    · simp only [collectMatchesAux, dif_neg h1]

/-- C3.  The spec claims the sentinel has `len = 0`; the code gives it
`len = 1` (src/lib.rs:327-331), so the amended claim proved here is: when no
dictionary word starts at `pos` (no prefix of the remaining input is a key),
the matcher returns exactly one sentinel word with `text = ""`, `freq = 0`
and `len = 1`. -/
theorem c3_matcher_no_match_returns_len_one_sentinel (seg : MMSeg)
    (chars : List Char) (pos : Nat)
    (h : ∀ k, 1 ≤ k → mapLookup seg.words ((chars.drop pos).take k) = none) :
    get_match_chinese_words seg chars pos = [sentinelWord] := by
  unfold get_match_chinese_words
  rw [collectMatchesAux_empty_of_no_match seg chars pos h seg.max_word_len
    pos le_rfl]
  rfl

/-- Witness for C3: the concrete dictionary `segHao` has no entry for `中`,
and the matcher on input `中` returns exactly the `len = 1` sentinel. -/
theorem c3_witness :
    get_match_chinese_words segHao ['中'] 0 = [sentinelWord] := by
  apply c3_matcher_no_match_returns_len_one_sentinel
  intro k hk
  rw [List.drop_zero, List.take_of_length_le (by simp; omega)]
  decide

/-- Counterexample for C3 as stated: the sentinel actually returned for an
unmatched Chinese character has `len = 1`, not `len = 0`. -/
theorem c3_counterexample :
    get_match_chinese_words segHao ['中'] 0 =
        [{ text := [], freq := 0, len := 1 }] ∧
      ({ text := [], freq := 0, len := 1 } : Word).len ≠ 0 := by
  exact ⟨by decide, by decide⟩

/-! ### C2: words inside enumerated chunks -/

/-- C2.  The spec claims every word of every enumerated chunk has `len ≥ 1`
and non-empty text; the `len ≥ 1` half is true and proved here, but the
non-empty-text half is false (see the counterexample): at end of buffer
`create_chunks` pushes `Chunk(w1)` even when `w1` is the empty-text sentinel
(src/lib.rs:375-377, no emptiness guard). -/
theorem c2_chunk_words_len_pos (seg : MMSeg) (chars : List Char) (pos : Nat)
    (c : Chunk) (hc : c ∈ create_chunks seg chars pos) :
    ∀ w ∈ c.words, 1 ≤ w.len :=
  create_chunks_words seg chars pos (fun w => 1 ≤ w.len)
    (fun p w hw => (get_match_chinese_words_forall seg chars p w hw).1) c hc

/-- Witness for C2's (amended) theorem at a concrete enumerator output. -/
theorem c2_witness : 1 ≤ (Word.mk ['中'] 7 1).len :=
  c2_chunk_words_len_pos segZhong ['中'] 0 (Chunk.new1 (Word.mk ['中'] 7 1))
    (by decide) (Word.mk ['中'] 7 1) (by decide)

/-- Counterexample for C2 as stated: with the empty dictionary and input
`中`, the enumerator emits the one-word chunk of the empty-text sentinel at
end of buffer, so a produced chunk contains a word with empty text. -/
theorem c2_counterexample :
    create_chunks MMSeg.new ['中'] 0 = [Chunk.new1 sentinelWord] ∧
      sentinelWord.text = [] := by
  exact ⟨by decide, by decide⟩

/-! ### C5: complex-mode emission -/

/-- C5.  Amended claim: when the winning chunk's first word is non-empty,
the complex-mode segmenter emits exactly that word and advances the cursor
by exactly its length, discarding the rest of the lookahead (the emission
loop is `iter().take(1)`, src/lib.rs:287-293); when the winning chunk starts
with the empty-text sentinel, nothing is emitted and the cursor does not
advance (see the counterexample). -/
theorem c5_complex_emits_first_word_only (seg : MMSeg) (chars : List Char)
    (pos : Nat) (chunk : Chunk) (w : Word)
    (hwin : (rankChunks (create_chunks seg chars pos)).head? = some chunk)
    (hw : chunk.words.head? = some w) (hne : w.text ≠ []) :
    get_chinese_words_complex seg chars pos = (w.text, pos + w.len) := by
  unfold get_chinese_words_complex
  simp only [hwin]
  cases hcw : chunk.words with
  | nil => rw [hcw] at hw; cases hw
  | cons w0 tl =>
    rw [hcw] at hw
    simp only [List.head?_cons, Option.some.injEq] at hw
    rw [hw]
    simp only [List.take_succ_cons, List.take_zero, List.foldl_cons,
      List.foldl_nil]
    rw [if_neg (by simp only [List.isEmpty_iff]; exact hne)]
    simp

/-- Witness for C5: with `中` in the dictionary, the winner's first word
`中` is emitted and the cursor advances by its length. -/
theorem c5_witness :
    get_chinese_words_complex segZhong ['中'] 0 = (['中'], 0 + 1) :=
  c5_complex_emits_first_word_only segZhong ['中'] 0
    (Chunk.new1 (Word.mk ['中'] 7 1)) (Word.mk ['中'] 7 1)
    (by decide) (by decide) (by decide)

/-- Counterexample for C5 as stated: on an unmatched character the winning
chunk is the sentinel singleton whose first word has `len = 1`, yet the
segmenter emits nothing and the cursor advances by `0`, not by that word's
length. -/
theorem c5_counterexample :
    (rankChunks (create_chunks segHao ['中'] 0)).head? =
        some (Chunk.new1 sentinelWord) ∧
      get_chinese_words_complex segHao ['中'] 0 = ([], 0) ∧
      (0 : Nat) ≠ 0 + sentinelWord.len := by
  exact ⟨by decide, by decide, by decide⟩

/-! ### C1 and C8: driver progress -/

theorem get_next_token_stall_hao_complex (f : Nat) :
    get_next_token segHao ['中'] false f 0 = none := by
  induction f with
  | zero => rfl
  | succ f ih =>
    calc get_next_token segHao ['中'] false (f + 1) 0
        = get_next_token segHao ['中'] false f 0 := by rfl
      _ = none := ih

theorem get_next_token_stall_hao_simple (f : Nat) :
    get_next_token segHao ['中'] true f 0 = none := by
  induction f with
  | zero => rfl
  | succ f ih =>
    calc get_next_token segHao ['中'] true (f + 1) 0
        = get_next_token segHao ['中'] true f 0 := by rfl
      _ = none := ih

/-- C1 is a code bug: the spec requires strict forward progress (a Chinese
character with no dictionary entry is dropped and `p` advances by one), but
on such a character both `get_chinese_words_complex` and
`get_chinese_words_simple` return an empty token without advancing the
cursor (src/lib.rs:287-293 skips the empty sentinel before the `pos`
update), so the `while` loop of `get_next_token` (src/lib.rs:181-195)
repeats the same state forever: for every fuel, `cut` and `cut_simple`
fail to terminate on the one-character input `中` under the dictionary
`segHao`, which has no entry for `中`. -/
theorem c1_driver_stalls_on_unmatched_char (fuel : Nat) :
    cut segHao ['中'] fuel = none ∧ cut_simple segHao ['中'] fuel = none := by
  constructor
  · cases fuel with
    | zero => rfl
    | succ f =>
      show cut_internal segHao ['中'] false (f + 1) 0 = none
      simp only [cut_internal, get_next_token_stall_hao_complex]
  · cases fuel with
    | zero => rfl
    | succ f =>
      show cut_internal segHao ['中'] true (f + 1) 0 = none
      simp only [cut_internal, get_next_token_stall_hao_simple]

theorem get_next_token_stall_empty_dict (f : Nat) :
    get_next_token MMSeg.new ['中', 'a'] false f 0 = none := by
  induction f with
  | zero => rfl
  | succ f ih =>
    calc get_next_token MMSeg.new ['中', 'a'] false (f + 1) 0
        = get_next_token MMSeg.new ['中', 'a'] false f 0 := by rfl
      _ = none := ih

/-- C8 is a code bug.  The universally quantified claim ("for every
dictionary and input text, every maximal ASCII alphanumeric run appears as
exactly one token") fails: with the empty dictionary and input `中a`, the
driver loops forever on the unmatched `中` (same bug as C1), so the ASCII
run `a` is never emitted — `cut` returns no token list at any fuel (first
conjunct).  The concrete scenario S2 of the claim does hold: on the purely
ASCII input `1988/02/29` the complex cut emits exactly the runs `1988`,
`02`, `29` (second conjunct). -/
theorem c8_ascii_runs (fuel : Nat) :
    cut MMSeg.new ['中', 'a'] fuel = none ∧
      cut MMSeg.new ['1', '9', '8', '8', '/', '0', '2', '/', '2', '9'] 20 =
        some [['1', '9', '8', '8'], ['0', '2'], ['2', '9']] := by
  constructor
  · cases fuel with
    | zero => rfl
    | succ f =>
      show cut_internal MMSeg.new ['中', 'a'] false (f + 1) 0 = none
      simp only [cut_internal, get_next_token_stall_empty_dict]
  · decide

/-! ### C6 and C7: the ranking cascade -/

theorem keyCompare_flip_neg (f : α → ℚ) (x y : α) :
    keyCompare f y x = keyCompare (fun a => -(f a)) x y := by
  unfold keyCompare
  simp only [neg_lt_neg_iff, neg_inj]
  rcases lt_trichotomy (f y) (f x) with h | h | h
  · rw [if_pos h, if_pos h]
  · have hnlt : ¬ f y < f x := by rw [h]; exact lt_irrefl _
    rw [if_neg hnlt, if_pos h, if_neg hnlt, if_pos h.symm]
  · have hnlt : ¬ f y < f x := not_lt_of_gt h
    have hne : ¬ f y = f x := ne_of_gt h
    have hne2 : ¬ f x = f y := ne_of_lt h
    rw [if_neg hnlt, if_neg hne, if_neg hnlt, if_neg hne2]

/-- C6.  For every list of chunks handed to the complex-mode ranker, if one
chunk's `total_word_len` is strictly greater than that of every other chunk,
that chunk is the cascade winner (the head of the final filtered list),
whatever the rule 2, 3 and 4 scores are: rule 1 already filters the list
down to copies of the strict maximum, and each later `take_high_test` leaves
a list of mutually tied elements unchanged. -/
theorem c6_strict_total_len_wins (chunks : List Chunk) (c : Chunk)
    (hc : c ∈ chunks)
    (hmax : ∀ d ∈ chunks, d ≠ c → d.total_word_len < c.total_word_len) :
    (rankChunks chunks).head? = some c := by
  have hne : chunks ≠ [] := by
    intro h; rw [h] at hc; cases hc
  have h1 := take_high_test_max_spec Chunk.total_word_len
    (fun a b => keyCompare Chunk.total_word_len a b) (fun _ _ => rfl)
    chunks hne
  set r1 := take_high_test (fun a b => keyCompare Chunk.total_word_len a b)
    chunks with hr1
  have hall1 : ∀ x ∈ r1, x = c := by
    intro x hx
    rcases h1.2 x hx with ⟨hxin, hxmax⟩
    by_contra hxc
    exact absurd (hxmax c hc) (not_le.mpr (hmax x hxin hxc))
  have e2 : take_high_test (fun a b => keyCompare Chunk.avg_word_len a b) r1
      = r1 :=
    take_high_test_all_eq _ _ (by
      intro x hx y hy
      rw [hall1 x hx, hall1 y hy]
      exact keyCompare_self _ _)
  have e3 : take_high_test (fun a b => keyCompare Chunk.varianceQ b a) r1
      = r1 :=
    take_high_test_all_eq _ _ (by
      intro x hx y hy
      rw [hall1 x hx, hall1 y hy]
      exact keyCompare_self _ _)
  have e4 : take_high_test (fun a b => keyCompare Chunk.word_freq_prod a b) r1
      = r1 :=
    take_high_test_all_eq _ _ (by
      intro x hx y hy
      rw [hall1 x hx, hall1 y hy]
      exact keyCompare_self _ _)
  show (take_high_test (fun a b => keyCompare Chunk.word_freq_prod a b)
    (take_high_test (fun a b => keyCompare Chunk.varianceQ b a)
      (take_high_test (fun a b => keyCompare Chunk.avg_word_len a b)
        r1))).head? = some c
  rw [e2, e3, e4]
  cases hr : r1 with
  | nil => exact absurd hr h1.1
  | cons z t =>
    rw [hall1 z (by rw [hr]; exact List.mem_cons_self z t)]
    rfl

/-- Witness for C6: the second chunk has the strictly larger total length
and wins even though it is emitted later and has a worse rule-4 score. -/
theorem c6_witness :
    (rankChunks [Chunk.new1 (Word.mk ['中'] 9 1),
        Chunk.new1 (Word.mk ['中', '国'] 0 2)]).head? =
      some (Chunk.new1 (Word.mk ['中', '国'] 0 2)) :=
  c6_strict_total_len_wins _ _ (by decide) (by decide)

/-- C7.  Among chunks tied on rules 1, 2 and 4 (equal `total_word_len`,
equal `avg_word_len`, equal `word_freq` score — the latter modelled by the
product of the single-character frequencies), the chunk with the strictly
smallest standard deviation (equivalently, smallest variance) of word
lengths wins: rule 3 is a minimisation, because the source compares
`b.stddev()` against `a.stddev()` with the arguments swapped
(src/lib.rs:274-278). -/
theorem c7_smallest_stddev_wins (chunks : List Chunk) (c : Chunk)
    (hc : c ∈ chunks)
    (ht : ∀ a ∈ chunks, ∀ b ∈ chunks, a.total_word_len = b.total_word_len)
    (ha : ∀ a ∈ chunks, ∀ b ∈ chunks, a.avg_word_len = b.avg_word_len)
    (_hf : ∀ a ∈ chunks, ∀ b ∈ chunks, a.word_freq_prod = b.word_freq_prod)
    (hmin : ∀ d ∈ chunks, d ≠ c → c.varianceQ < d.varianceQ) :
    (rankChunks chunks).head? = some c := by
  have hne : chunks ≠ [] := by
    intro h; rw [h] at hc; cases hc
  have e1 : take_high_test (fun a b => keyCompare Chunk.total_word_len a b)
      chunks = chunks :=
    take_high_test_all_eq _ _
      (fun x hx y hy => keyCompare_eq_of_eq (ht x hx y hy))
  have e2 : take_high_test (fun a b => keyCompare Chunk.avg_word_len a b)
      chunks = chunks :=
    take_high_test_all_eq _ _
      (fun x hx y hy => keyCompare_eq_of_eq (ha x hx y hy))
  have h3 := take_high_test_max_spec (fun d => -(d.varianceQ))
    (fun a b => keyCompare Chunk.varianceQ b a)
    (fun x y => keyCompare_flip_neg Chunk.varianceQ x y) chunks hne
  set r3 := take_high_test (fun a b => keyCompare Chunk.varianceQ b a) chunks
    with hr3
  have hall3 : ∀ x ∈ r3, x = c := by
    intro x hx
    rcases h3.2 x hx with ⟨hxin, hxmax⟩
    by_contra hxc
    have h1 : -(c.varianceQ) ≤ -(x.varianceQ) := hxmax c hc
    have h2 : c.varianceQ < x.varianceQ := hmin x hxin hxc
    have h4 : x.varianceQ ≤ c.varianceQ := by
      have := neg_le_neg_iff.mp h1
      exact this
    exact absurd h2 (not_lt.mpr h4)
  have e4 : take_high_test (fun a b => keyCompare Chunk.word_freq_prod a b) r3
      = r3 :=
    take_high_test_all_eq _ _ (by
      intro x hx y hy
      rw [hall3 x hx, hall3 y hy]
      exact keyCompare_self _ _)
  show (take_high_test (fun a b => keyCompare Chunk.word_freq_prod a b)
    (take_high_test (fun a b => keyCompare Chunk.varianceQ b a)
      (take_high_test (fun a b => keyCompare Chunk.avg_word_len a b)
        (take_high_test (fun a b => keyCompare Chunk.total_word_len a b)
          chunks)))).head? = some c
  rw [e1, e2, ← hr3, e4]
  cases hr : r3 with
  | nil => exact absurd hr h3.1
  | cons z t =>
    rw [hall3 z (by rw [hr]; exact List.mem_cons_self z t)]
    rfl

/-- Witness for C7: two chunks with equal totals, averages and frequency
scores; the even split (variance 0) beats the uneven split (variance 1)
even though the uneven split is emitted first. -/
theorem c7_witness :
    (rankChunks [Chunk.new2 (Word.mk ['x'] 1 1) (Word.mk ['y', 'y', 'y'] 0 3),
        Chunk.new2 (Word.mk ['z', 'z'] 0 2) (Word.mk ['z', 'z'] 0 2)]).head? =
      some (Chunk.new2 (Word.mk ['z', 'z'] 0 2) (Word.mk ['z', 'z'] 0 2)) :=
  c7_smallest_stddev_wins _ _ (by decide) (by decide)
    (by
      intro a ha b hb
      fin_cases ha <;> fin_cases hb <;>
        norm_num [Chunk.avg_word_len, Chunk.total_word_len, Chunk.new2])
    (by decide)
    (by
      intro d hd hne
      fin_cases hd
      · norm_num [Chunk.varianceQ, Chunk.avg_word_len, Chunk.total_word_len,
          Chunk.new2]
      · exact absurd rfl hne)

/-! ### C10: Chinese-position tokens are dictionary keys -/

/-- C10.  Every non-empty token produced at a Chinese position is a key of
the dictionary map: in complex mode the token is the first word of the
winning chunk, in simple mode the single word of the winning singleton
chunk, and in both modes those words were built only from successful
dictionary lookups in `get_match_chinese_words` (the empty-text sentinel is
never emitted). -/
theorem c10_chinese_tokens_are_dict_keys (seg : MMSeg) (chars : List Char)
    (pos : Nat) :
    ((get_chinese_words_complex seg chars pos).1 ≠ [] →
        ∃ f, mapLookup seg.words (get_chinese_words_complex seg chars pos).1 =
          some f) ∧
      ((get_chinese_words_simple seg chars pos).1 ≠ [] →
        ∃ f, mapLookup seg.words (get_chinese_words_simple seg chars pos).1 =
          some f) := by
  constructor
  · intro hne
    rcases hh : (rankChunks (create_chunks seg chars pos)).head? with _ | chunk
    · rw [show get_chinese_words_complex seg chars pos = ([], pos) by
        unfold get_chinese_words_complex
        simp only [hh]] at hne
      exact absurd rfl hne
    · have hchunk : chunk ∈ create_chunks seg chars pos := by
        have h4 : chunk ∈ rankChunks (create_chunks seg chars pos) :=
          List.mem_of_mem_head? (Option.mem_def.mpr hh)
        unfold rankChunks at h4
        exact take_high_test_mem _ _ _
          (take_high_test_mem _ _ _
            (take_high_test_mem _ _ _ (take_high_test_mem _ _ _ h4)))
      have hwords : ∀ w ∈ chunk.words,
          w.text = [] ∨ mapLookup seg.words w.text = some w.freq :=
        create_chunks_words seg chars pos _
          (fun p w hw => (get_match_chinese_words_forall seg chars p w hw).2)
          chunk hchunk
      have hred : get_chinese_words_complex seg chars pos =
          (chunk.words.take 1).foldl
            (fun acc w =>
              if w.text.isEmpty then acc else (acc.1 ++ w.text, acc.2 + w.len))
            ([], pos) := by
        unfold get_chinese_words_complex
        simp only [hh]
      rw [hred] at hne ⊢
      cases hcw : chunk.words with
      | nil => rw [hcw] at hne; exact absurd rfl hne
      | cons w tl =>
        rw [hcw] at hne
        simp only [List.take_succ_cons, List.take_zero, List.foldl_cons,
          List.foldl_nil] at hne ⊢
        by_cases he : w.text.isEmpty
        · rw [if_pos he] at hne
          exact absurd rfl hne
        · rw [if_neg he] at hne ⊢
          simp only [List.nil_append] at hne ⊢
          rcases hwords w (by rw [hcw]; exact List.mem_cons_self w tl) with
            h | h
          · exact absurd h (by simpa [List.isEmpty_iff] using he)
          · exact ⟨w.freq, h⟩
  · intro hne
    rcases hm : max_by_key Chunk.total_word_len
        (create_simple_chunks seg chars pos) with _ | chunk
    · rw [show get_chinese_words_simple seg chars pos = ([], pos) by
        unfold get_chinese_words_simple
        simp only [hm]] at hne
      exact absurd rfl hne
    · have hchunk : chunk ∈ create_simple_chunks seg chars pos :=
        max_by_key_mem _ _ _ hm
      rcases create_simple_chunks_shape seg chars pos chunk hchunk with
        ⟨w, hw, hwne, hshape⟩
      have hred : get_chinese_words_simple seg chars pos =
          chunk.words.foldl
            (fun acc w =>
              if w.text.isEmpty then acc
              else (acc.1 ++ w.text, acc.2 + w.len))
            ([], pos) := by
        unfold get_chinese_words_simple
        simp only [hm]
      rw [hred, hshape] at hne ⊢
      simp only [Chunk.new1, List.foldl_cons, List.foldl_nil] at hne ⊢
      rw [if_neg (by simp only [List.isEmpty_iff]; exact hwne)] at hne ⊢
      simp only [List.nil_append] at hne ⊢
      rcases (get_match_chinese_words_forall seg chars pos w hw).2 with
        h | h
      · exact absurd h hwne
      · exact ⟨w.freq, h⟩

/-- Witness for C10 on the concrete dictionary `segZhong` and input `中`:
the emitted complex-mode token `中` is a dictionary key. -/
theorem c10_witness :
    ∃ f, mapLookup segZhong.words
        (get_chinese_words_complex segZhong ['中'] 0).1 = some f :=
  (c10_chinese_tokens_are_dict_keys segZhong ['中'] 0).1 (by decide)

/-! ### C4: failure modes of the dictionary loader -/

/-- Well-formedness of a dictionary line as the source's loop body demands
it: at least two space-separated fields and a first field that parses as a
`u32`.  (Extra fields are allowed — the source ignores them.) -/
def wfLine (line : List Char) : Bool :=
  match (splitOnSpace line)[0]?, (splitOnSpace line)[1]? with
  | some p0, some _ => (parseU32 p0).isSome
  | _, _ => false

theorem loadCharLine_isSome (seg : MMSeg) (line : List Char) :
    (loadCharLine seg line).isSome = wfLine line := by
  unfold loadCharLine wfLine
  rcases h0 : (splitOnSpace line)[0]? with _ | p0
  · simp [h0]
  · rcases h1 : (splitOnSpace line)[1]? with _ | p1
    · simp [h0, h1]
    · rcases hp : parseU32 p0 with _ | v <;> simp [h0, h1, hp]

theorem loadWordLine_isSome (seg : MMSeg) (line : List Char) :
    (loadWordLine seg line).isSome = wfLine line := by
  unfold loadWordLine wfLine
  rcases h0 : (splitOnSpace line)[0]? with _ | p0
  · simp [h0]
  · rcases h1 : (splitOnSpace line)[1]? with _ | p1
    · simp [h0, h1]
    · rcases hp : parseU32 p0 with _ | v <;> simp [h0, h1, hp]

theorem loadLines_no_io (step : MMSeg → List Char → Option MMSeg) :
    ∀ (lines : List (Option (List Char))) (seg : MMSeg),
      (∀ e ∈ lines, e ≠ none) →
      loadLines step seg lines ≠ LoadResult.ioError := by
  intro lines
  induction lines with
  | nil => intro seg _ h; cases h
  | cons e rest ih =>
    intro seg hl
    cases e with
    | none => exact absurd rfl (hl none (List.mem_cons_self _ _))
    | some line =>
      simp only [loadLines]
      rcases hs : step seg line with _ | seg1
      · intro h; cases h
      · exact ih seg1 (fun x hx => hl x (List.mem_cons_of_mem _ hx))

theorem loadLines_ok (step : MMSeg → List Char → Option MMSeg)
    (hstep : ∀ seg line, wfLine line = true → (step seg line).isSome) :
    ∀ (lines : List (Option (List Char))) (seg : MMSeg),
      (∀ e ∈ lines, ∃ l, e = some l ∧ wfLine l = true) →
      ∃ seg2, loadLines step seg lines = LoadResult.ok seg2 := by
  intro lines
  induction lines with
  | nil => intro seg _; exact ⟨seg, rfl⟩
  | cons e rest ih =>
    intro seg hl
    rcases hl e (List.mem_cons_self _ _) with ⟨l, rfl, hwf⟩
    simp only [loadLines]
    rcases hs : step seg l with _ | seg1
    · have h := hstep seg l hwf
      rw [hs] at h
      simp at h
    · exact ih seg1 (fun x hx => hl x (List.mem_cons_of_mem _ hx))

theorem loadLines_panic (step : MMSeg → List Char → Option MMSeg)
    (_hstepS : ∀ seg line, wfLine line = true → (step seg line).isSome)
    (hstepN : ∀ seg line, wfLine line = false → step seg line = none) :
    ∀ (pre : List (Option (List Char))) (line : List Char)
      (rest : List (Option (List Char))) (seg : MMSeg),
      (∀ e ∈ pre, ∃ l, e = some l ∧ wfLine l = true) →
      wfLine line = false →
      loadLines step seg (pre ++ some line :: rest) =
        LoadResult.panicked := by
  intro pre
  induction pre with
  | nil =>
    intro line rest seg _ hbad
    simp only [List.nil_append, loadLines, hstepN seg line hbad]
  | cons e pre1 ih =>
    intro line rest seg hpre hbad
    rcases hpre e (List.mem_cons_self _ _) with ⟨l, rfl, hwf⟩
    simp only [List.cons_append, loadLines]
    rcases hs : step seg l with _ | seg1
    · rfl
    · exact ih line rest seg1
        (fun x hx => hpre x (List.mem_cons_of_mem _ hx)) hbad

theorem loadLines_io (step : MMSeg → List Char → Option MMSeg)
    (hstepS : ∀ seg line, wfLine line = true → (step seg line).isSome) :
    ∀ (pre : List (Option (List Char))) (rest : List (Option (List Char)))
      (seg : MMSeg),
      (∀ e ∈ pre, ∃ l, e = some l ∧ wfLine l = true) →
      loadLines step seg (pre ++ none :: rest) = LoadResult.ioError := by
  intro pre
  induction pre with
  | nil => intro rest seg _; rfl
  | cons e pre1 ih =>
    intro rest seg hpre
    rcases hpre e (List.mem_cons_self _ _) with ⟨l, rfl, hwf⟩
    simp only [List.cons_append, loadLines]
    rcases hs : step seg l with _ | seg1
    · have h := hstepS seg l hwf
      rw [hs] at h
      simp at h
    · exact ih rest seg1 (fun x hx => hpre x (List.mem_cons_of_mem _ hx))

theorem wf_step_char (seg : MMSeg) (line : List Char)
    (h : wfLine line = true) : (loadCharLine seg line).isSome := by
  rw [loadCharLine_isSome]; exact h

theorem wf_step_word (seg : MMSeg) (line : List Char)
    (h : wfLine line = true) : (loadWordLine seg line).isSome := by
  rw [loadWordLine_isSome]; exact h

theorem bad_step_char (seg : MMSeg) (line : List Char)
    (h : wfLine line = false) : loadCharLine seg line = none := by
  have := loadCharLine_isSome seg line
  rw [h] at this
  rcases hs : loadCharLine seg line with _ | s
  · rfl
  · rw [hs] at this; cases this

theorem bad_step_word (seg : MMSeg) (line : List Char)
    (h : wfLine line = false) : loadWordLine seg line = none := by
  have := loadWordLine_isSome seg line
  rw [h] at this
  rcases hs : loadWordLine seg line with _ | s
  · rfl
  · rw [hs] at this; cases this

/-- C4, corrected.  The source has no `DictFormat` error: a malformed line
(first field not parsing as `u32`, or fewer than two fields) makes
`load_dict` panic (`unwrap` / index out of bounds, src/lib.rs:119-120 and
132-133) instead of returning an error, while extra fields are silently
ignored.  The amended statement proved here: (1) when every line of both
streams is well formed, loading succeeds; (2) a read failure after
well-formed lines is propagated as the I/O error — the only error the
function ever returns; (3)-(4) a malformed line in either stream, after
well-formed lines, panics; (5) if neither stream has a read failure, the
result is never the I/O error (so `DictIO` arises only from read
failures). -/
theorem c4_load_dict_failure_modes :
    (∀ (seg : MMSeg) cd wd,
        (∀ e ∈ cd, ∃ l, e = some l ∧ wfLine l = true) →
        (∀ e ∈ wd, ∃ l, e = some l ∧ wfLine l = true) →
        ∃ seg2, load_dict seg cd wd = LoadResult.ok seg2) ∧
    (∀ (seg : MMSeg) pre rest wd,
        (∀ e ∈ pre, ∃ l, e = some l ∧ wfLine l = true) →
        load_dict seg (pre ++ none :: rest) wd = LoadResult.ioError) ∧
    (∀ (seg : MMSeg) pre line rest wd,
        (∀ e ∈ pre, ∃ l, e = some l ∧ wfLine l = true) →
        wfLine line = false →
        load_dict seg (pre ++ some line :: rest) wd = LoadResult.panicked) ∧
    (∀ (seg : MMSeg) cd pre line rest,
        (∀ e ∈ cd, ∃ l, e = some l ∧ wfLine l = true) →
        (∀ e ∈ pre, ∃ l, e = some l ∧ wfLine l = true) →
        wfLine line = false →
        load_dict seg cd (pre ++ some line :: rest) = LoadResult.panicked) ∧
    (∀ (seg : MMSeg) cd wd,
        (∀ e ∈ cd, e ≠ none) → (∀ e ∈ wd, e ≠ none) →
        load_dict seg cd wd ≠ LoadResult.ioError) := by
  refine ⟨?_, ?_, ?_, ?_, ?_⟩
  · intro seg cd wd hcd hwd
    rcases loadLines_ok loadCharLine wf_step_char cd seg hcd with ⟨seg1, h1⟩
    rcases loadLines_ok loadWordLine wf_step_word wd seg1 hwd with ⟨seg2, h2⟩
    refine ⟨seg2, ?_⟩
    unfold load_dict
    rw [h1]
    exact h2
  · intro seg pre rest wd hpre
    unfold load_dict
    rw [loadLines_io loadCharLine wf_step_char pre rest seg hpre]
  · intro seg pre line rest wd hpre hbad
    unfold load_dict
    rw [loadLines_panic loadCharLine wf_step_char bad_step_char pre line rest
      seg hpre hbad]
  · intro seg cd pre line rest hcd hpre hbad
    unfold load_dict
    rcases loadLines_ok loadCharLine wf_step_char cd seg hcd with ⟨seg1, h1⟩
    rw [h1]
    exact loadLines_panic loadWordLine wf_step_word bad_step_word pre line
      rest seg1 hpre hbad
  · intro seg cd wd hcd hwd
    unfold load_dict
    rcases hcl : loadLines loadCharLine seg cd with seg1 | _ | _
    · exact loadLines_no_io loadWordLine wd seg1 hwd
    · exact absurd hcl (loadLines_no_io loadCharLine cd seg hcd)
    · intro h; cases h

/-- Witness for C4: a fully well-formed pair of streams loads successfully,
and a malformed first field (`x` is not an integer) panics. -/
theorem c4_witness :
    (∃ seg2, load_dict MMSeg.new [some ['5', ' ', '好']]
        [some ['2', ' ', '好', '了']] = LoadResult.ok seg2) ∧
      load_dict MMSeg.new [some ['x', ' ', '好']] [] =
        LoadResult.panicked := by
  constructor
  · exact c4_load_dict_failure_modes.1 MMSeg.new _ _
      (by
        intro e he
        rcases List.mem_singleton.mp he with rfl
        exact ⟨_, rfl, by decide⟩)
      (by
        intro e he
        rcases List.mem_singleton.mp he with rfl
        exact ⟨_, rfl, by decide⟩)
  · exact c4_load_dict_failure_modes.2.2.1 MMSeg.new [] ['x', ' ', '好'] [] []
      (by intro e he; cases he) (by decide)

/-- Counterexample for C4 as stated: on the malformed character-dictionary
line `x 好` (unparsable integer) the loader does not return an error of any
kind — it panics (the model's `panicked` outcome, `unwrap` in the source). -/
theorem c4_counterexample :
    load_dict MMSeg.new [some ['x', ' ', '好']] [] = LoadResult.panicked ∧
      LoadResult.panicked ≠ LoadResult.ioError := by
  exact ⟨by decide, by decide⟩

/-! ### C9: the word-dictionary pass overwrites character frequencies -/

/-- The key a dictionary line inserts: the trimmed second field. -/
def lineKey (line : List Char) : Option (List Char) :=
  ((splitOnSpace line)[1]?).map trimChars

theorem mapLookup_insert_self (m : List (List Char × Nat)) (k : List Char)
    (v : Nat) : mapLookup (mapInsert m k v) k = some v := by
  simp [mapInsert, mapLookup]

theorem mapLookup_insert_other (m : List (List Char × Nat))
    (k1 k : List Char) (v : Nat) (h : k1 ≠ k) :
    mapLookup (mapInsert m k1 v) k = mapLookup m k := by
  simp [mapInsert, mapLookup, h]

theorem loadWordLine_shape (seg : MMSeg) (line : List Char) (seg2 : MMSeg)
    (h : loadWordLine seg line = some seg2) :
    ∃ k, lineKey line = some k ∧ seg2.words = mapInsert seg.words k 0 := by
  unfold loadWordLine at h
  simp only at h
  rcases h0 : (splitOnSpace line)[0]? with _ | p0
  · rw [h0] at h; cases h
  · rcases h1 : (splitOnSpace line)[1]? with _ | p1
    · rw [h0, h1] at h; cases h
    · rw [h0, h1] at h
      simp only at h
      rcases hp : parseU32 p0 with _ | v
      · rw [hp] at h; cases h
      · rw [hp] at h
        simp only [Option.some.injEq] at h
        refine ⟨trimChars p1, ?_, ?_⟩
        · rw [lineKey, h1]; rfl
        · rw [← h]

theorem loadLines_word_pass_zero (key : List Char) :
    ∀ (lines : List (Option (List Char))) (seg seg2 : MMSeg),
      loadLines loadWordLine seg lines = LoadResult.ok seg2 →
      (mapLookup seg.words key = some 0 ∨
        ∃ e ∈ lines, ∃ l, e = some l ∧ lineKey l = some key) →
      mapLookup seg2.words key = some 0 := by
  intro lines
  induction lines with
  | nil =>
    intro seg seg2 hok hd
    simp only [loadLines, LoadResult.ok.injEq] at hok
    rcases hd with hd | ⟨e, he, _⟩
    · rw [← hok]; exact hd
    · cases he
  | cons e rest ih =>
    intro seg seg2 hok hd
    cases e with
    | none => cases hok
    | some l =>
      simp only [loadLines] at hok
      rcases hs : loadWordLine seg l with _ | seg1
      · rw [hs] at hok; cases hok
      · rw [hs] at hok
        rcases loadWordLine_shape seg l seg1 hs with ⟨k1, hk1, hw1⟩
        refine ih seg1 seg2 hok ?_
        rcases hd with hd | ⟨e1, he1, l1, hel1, hkey1⟩
        · by_cases hkk : k1 = key
          · rw [hkk] at hw1
            exact Or.inl (by rw [hw1]; exact mapLookup_insert_self _ _ _)
          · refine Or.inl ?_
            rw [hw1, mapLookup_insert_other _ _ _ _ hkk]
            exact hd
        · rcases List.mem_cons.mp he1 with he1 | he1
          · rw [he1] at hel1
            injection hel1 with hel1
            rw [← hel1] at hkey1
            rw [hk1] at hkey1
            injection hkey1 with hkey1
            rw [hkey1] at hw1
            exact Or.inl (by rw [hw1]; exact mapLookup_insert_self _ _ _)
          · exact Or.inr ⟨e1, he1, l1, hel1, hkey1⟩

/-- C9.  `load_dict` runs the character-dictionary pass first and the
word-dictionary pass second (src/lib.rs:116-140), and an insertion
overwrites any earlier binding of the same key; the word pass always
inserts frequency `0`, so a key that appears in both streams (in
particular a single-character entry) maps to `0` after a successful
load. -/
theorem c9_word_pass_overwrites_with_zero (seg : MMSeg)
    (cd wd : List (Option (List Char))) (seg2 : MMSeg) (key : List Char)
    (hok : load_dict seg cd wd = LoadResult.ok seg2)
    (_hchar : ∃ e ∈ cd, ∃ l, e = some l ∧ lineKey l = some key)
    (hword : ∃ e ∈ wd, ∃ l, e = some l ∧ lineKey l = some key) :
    mapLookup seg2.words key = some 0 := by
  unfold load_dict at hok
  rcases hcl : loadLines loadCharLine seg cd with seg1 | _ | _
  · rw [hcl] at hok
    exact loadLines_word_pass_zero key wd seg1 seg2 hok (Or.inr hword)
  · rw [hcl] at hok; cases hok
  · rw [hcl] at hok; cases hok

/-- Witness for C9: the character `好` is loaded with frequency 5 from the
character dictionary and then re-inserted with frequency 0 by the word
dictionary, so the loaded map sends it to `0`. -/
theorem c9_witness :
    mapLookup (MMSeg.mk [(['好'], 0), (['好'], 5)] 1).words ['好'] =
      some 0 :=
  c9_word_pass_overwrites_with_zero MMSeg.new [some ['5', ' ', '好']]
    [some ['1', ' ', '好']] (MMSeg.mk [(['好'], 0), (['好'], 5)] 1) ['好']
    (by decide)
    ⟨some ['5', ' ', '好'], by decide, ['5', ' ', '好'], rfl, by decide⟩
    ⟨some ['1', ' ', '好'], by decide, ['1', ' ', '好'], rfl, by decide⟩

end Mmseg
